import Mathlib

/-!
Verification of the bundling / unbundling pipeline of `git-slut.py`.

Python strings are modelled as `List Char` (a Python `str` is a sequence of
unicode code points, exactly as `List Char` is).  The Python standard-library
string and path helpers that the program uses (`str.split`, `str.strip`,
`str.splitlines`, `"sep".join`, `os.path.join`, `os.path.normpath`) are
embedded as executable Lean functions below, and the program's own functions
(`get_ignored_files`, `create_codebase_file`, `apply_improvements`,
`generate_commit_message`, `commit_changes`, `improve_code`, `main`) are
translated from the source on top of them.

The file system is modelled relative to the repository root: a list of
(relative path, content) pairs together with the set of (relative) directory
paths that exist.  This is faithful because every path the program writes is
produced by `strip("// ")`, which cannot begin with `/`, so
`os.path.join(repo_dir, path)` always lands inside the repository.
-/

namespace GitSlut

/-- Python `s.split(sep)` for a one-character separator `sep`:
splits at every occurrence, keeping empty pieces. -/
def splitChar (sep : Char) : List Char → List (List Char)
  | [] => [[]]
  | a :: rest =>
    if a = sep then [] :: splitChar sep rest
    else
      match splitChar sep rest with
      | [] => [[a]]
      | h :: t => (a :: h) :: t

/-- Python `sep.join(pieces)` for a one-character separator. -/
def joinChar (sep : Char) : List (List Char) → List Char
  | [] => []
  | [x] => x
  | x :: y :: rest => x ++ sep :: joinChar sep (y :: rest)

/-- Python `s.split("\n\n")`: greedy left-to-right split on the two-character
entry separator used by the bundler, keeping empty pieces. -/
def splitNN : List Char → List (List Char)
  | [] => [[]]
  | [c] => [[c]]
  | a :: b :: rest =>
    if a = '\n' ∧ b = '\n' then [] :: splitNN rest
    else
      match splitNN (b :: rest) with
      | [] => [[a]]
      | h :: t => (a :: h) :: t

/-- Python `s.strip(chars)`: removes every leading and trailing character
belonging to the set `chars`. -/
def pyStrip (chars : List Char) (s : List Char) : List Char :=
  ((s.dropWhile (fun c => decide (c ∈ chars))).reverse.dropWhile
    (fun c => decide (c ∈ chars))).reverse

/-- The ASCII whitespace characters stripped by Python `str.strip()`. -/
def wsChars : List Char := [' ', '\t', '\n', '\r', '\x0b', '\x0c']

/-- Python `s.strip()` (no argument): strips whitespace. -/
def pyStripWs (s : List Char) : List Char := pyStrip wsChars s

/-- Helper for `pySplitlines`; `acc` holds the current line reversed. -/
def splitlinesAux : List Char → List Char → List (List Char)
  | [], acc => if acc.isEmpty then [] else [acc.reverse]
  | '\r' :: '\n' :: rest, acc => acc.reverse :: splitlinesAux rest []
  | '\n' :: rest, acc => acc.reverse :: splitlinesAux rest []
  | '\r' :: rest, acc => acc.reverse :: splitlinesAux rest []
  | c :: rest, acc => splitlinesAux rest (c :: acc)

/-- Python `s.splitlines()` on the line boundaries `\n`, `\r`, `\r\n`
(the further unicode boundaries Python also recognises do not occur in the
documents this program handles): no trailing empty line is produced. -/
def pySplitlines (s : List Char) : List (List Char) := splitlinesAux s []

/-- Python `posixpath.join(a, b)` for exactly two arguments. -/
def pyJoin (a b : List Char) : List Char :=
  if b.take 1 = ['/'] then b
  else if a = [] ∨ a.getLast? = some '/' then a ++ b
  else a ++ '/' :: b

/-- Python `posixpath.normpath(p)`, translated clause by clause from
CPython's implementation. -/
def pyNormpath (p : List Char) : List Char :=
  if p = [] then ['.']
  else
    let initialSlashes : Nat :=
      if p.take 2 = ['/', '/'] ∧ p.take 3 ≠ ['/', '/', '/'] then 2
      else if p.take 1 = ['/'] then 1
      else 0
    let comps := splitChar '/' p
    let newComps := comps.foldl
      (fun acc comp =>
        if comp = [] ∨ comp = ['.'] then acc
        else if comp ≠ ['.', '.'] ∨ (initialSlashes = 0 ∧ acc = []) ∨
            acc.getLast? = some ['.', '.'] then acc ++ [comp]
        else acc.dropLast)
      []
    let res := List.replicate initialSlashes '/' ++ joinChar '/' newComps
    if res = [] then ['.'] else res

/-- `true` when the string contains no two adjacent newline characters,
i.e. no occurrence of the entry separator `"\n\n"`. -/
def noNN : List Char → Bool
  | [] => true
  | [_] => true
  | a :: b :: rest => !(a = '\n' && b = '\n') && noNN (b :: rest)

/-- A character allowed at the edges of a bundled path: the header
decoration strip `strip("// ")` must not eat into the path. -/
def edgeOk (c : Char) : Bool := !decide (c = '/') && !decide (c = ' ')

/-- A relative path that survives the bundle round trip: nonempty, free of
newlines, and not beginning or ending in a character of the strip set. -/
def goodPath (p : List Char) : Bool :=
  !p.isEmpty && !decide ('\n' ∈ p) && edgeOk (p.headD '/') && edgeOk (p.getLastD '/')

/-- A file content that survives the bundle round trip: the surrounding
entry `"// path\n" ++ content ++ "\n\n"` contains the separator exactly
once, i.e. the content is nonempty, contains no `"\n\n"`, and neither
begins nor ends with a newline. -/
def goodContent (c : List Char) : Bool :=
  noNN ('\n' :: (c ++ ['\n']))

/-- A source file visited by `os.walk`: its path relative to the repository
root, its content, and whether it can be read as UTF-8 text (unreadable
files are logged and skipped by the bundler). -/
structure SrcFile where
  path : List Char
  content : List Char
  readable : Bool
deriving DecidableEq, Repr

/-- The repository's on-disk state, relative to the repository root:
an association list from relative file paths to contents, plus the set of
relative paths that are directories. -/
structure FS where
  files : List (List Char × List Char)
  dirs : List (List Char)
deriving DecidableEq, Repr

/-- Reading the file stored at relative path `p` (first match wins, as for a
real file system the keys are unique). -/
def lookupFile : List (List Char × List Char) → List Char → Option (List Char)
  | [], _ => none
  | e :: rest, p => if e.1 = p then some e.2 else lookupFile rest p

/-- `open(p, "w").write(c)`: replaces the content stored at `p`, or creates
the file when absent. -/
def setFile : List (List Char × List Char) → List Char → List Char →
    List (List Char × List Char)
  | [], p, c => [(p, c)]
  | e :: rest, p, c => if e.1 = p then (p, c) :: rest else e :: setFile rest p c

/-- The proper directory prefixes of a relative path, e.g.
`x/y/z.txt` has ancestors `x` and `x/y`; these are the directories
`os.makedirs(os.path.dirname(...), exist_ok=True)` creates before a write. -/
def ancestors (p : List Char) : List (List Char) :=
  let parts := splitChar '/' p
  (List.range (parts.length - 1)).map (fun i => joinChar '/' (parts.take (i + 1)))

/-- `os.path.isdir(os.path.join(repo_dir, p))` for a relative path `p`:
the empty path denotes the repository root itself (`join` yields
`repo_dir + "/"`), which always exists as a directory. -/
def isDir (fs : FS) (p : List Char) : Bool :=
  decide (p = []) || decide (p ∈ fs.dirs)

/-- The built-in ignore list, from `get_ignored_files` in `git-slut.py`. -/
def get_ignored_files : List (List Char) :=
  [".DS_Store".data,
   "node_modules/".data,
   "__pycache__/".data,
   "*.pyc".data,
   "venv/".data,
   "env/".data,
   "*.egg-info/".data,
   "dist/".data,
   "build/".data,
   "*.app/".data,
   "*.ipa/".data,
   "*.apk/".data,
   "*.aab/".data,
   "*.class".data,
   "*.dex".data,
   ".git/".data,
   ".gitignore".data,
   "LICENSE".data,
   "README.md".data]

/-- The per-file ignore test of `create_codebase_file` (line 109 of the
source): `any(os.path.normpath(os.path.join(repo_dir, ignored_file)) ==
os.path.normpath(file_path) for ignored_file in ignored_files)`, where
`file_path` is the path of the visited file relative to `repo_dir`. -/
def isIgnored (repoDir : List Char) (ignored : List (List Char))
    (p : List Char) : Bool :=
  ignored.any (fun ig => pyNormpath (pyJoin repoDir ig) = pyNormpath p)

/-- A visited file gets written to the bundle exactly when it is not
ignored and is readable as UTF-8 text. -/
def qualifies (repoDir : List Char) (ignored : List (List Char))
    (f : SrcFile) : Bool :=
  !isIgnored repoDir ignored f.path && f.readable

/-- The part of a bundle entry before the entry separator:
`"// " + file_path + "\n" + content`. -/
def bodyFor (f : SrcFile) : List Char :=
  '/' :: '/' :: ' ' :: (f.path ++ '\n' :: f.content)

/-- One bundle entry as written by `create_codebase_file`:
`"// " + file_path + "\n" + content + "\n\n"`. -/
def entryFor (f : SrcFile) : List Char :=
  bodyFor f ++ ['\n', '\n']

/-- The document accumulated in the temporary bundle file for a walk that
visits the given files in order. -/
def docOf (files : List SrcFile) : List Char :=
  (files.map entryFor).foldr (· ++ ·) []

/-- The bundle document `create_codebase_file` writes for the walk `files`
of repository `repoDir` whose `.gitignore` holds the lines `gitignore`. -/
def bundleDoc (repoDir : List Char) (files : List SrcFile)
    (gitignore : List (List Char)) : List Char :=
  docOf (files.filter (qualifies repoDir (get_ignored_files ++ gitignore)))

/-- `create_codebase_file`: walks the repository, writes one tagged entry
per qualifying file into a temporary file, and returns `none` (after
deleting the temporary file) when the resulting file is empty, otherwise
the document.  The walk is abstracted by the ordered list of visited files
(`os.walk` yields the files of a directory before those of its
subdirectories), and `read_gitignore` by the list of `.gitignore` lines. -/
def create_codebase_file (repoDir : List Char) (files : List SrcFile)
    (gitignore : List (List Char)) : Option (List Char) :=
  let doc := bundleDoc repoDir files gitignore
  if doc.isEmpty then none else some doc

/-- `original_file.split("\n")[0].strip("// ")`: the target path extracted
from a chunk — its first line with leading and trailing `/` and space
characters removed. -/
def chunkPath (chunk : List Char) : List Char :=
  pyStrip ['/', ' '] ((splitChar '\n' chunk).headD [])

/-- `"\n".join(improved_file.split("\n")[1:])`: the content extracted from a
chunk — everything after its first line. -/
def chunkBody (chunk : List Char) : List Char :=
  joinChar '\n' ((splitChar '\n' chunk).tail)

/-- One write of `apply_improvements`: skip when the target resolves to an
existing directory, otherwise create the missing parent directories and
overwrite the file. -/
def applyStep (fs : FS) (w : List Char × List Char) : FS :=
  if isDir fs w.1 then fs
  else ⟨setFile fs.files w.1 w.2, fs.dirs ++ ancestors w.1⟩

/-- `apply_improvements(repo_dir, original_codebase, improved_codebase)`:
splits both documents on `"\n\n"`, pairs the chunks positionally with
`zip`, and for each pair writes the replacement chunk's content (its lines
after the first) to the path named by the original chunk's first line. -/
def apply_improvements (fs : FS) (orig impr : List Char) : FS :=
  ((splitNN orig).zip (splitNN impr)).foldl
    (fun fs pr =>
      let origPath := chunkPath pr.1
      let content := chunkBody pr.2
      if isDir fs origPath then fs
      else ⟨setFile fs.files origPath content, fs.dirs ++ ancestors origPath⟩)
    fs

/-- The write list described by the spec's parsing policy: split both
documents on the entry separator, pair chunks positionally, and for the
n-th pair take the path from the first line of the n-th original chunk
(header decoration stripped) and the content from the lines after the
first line of the n-th replacement chunk. -/
def specWrites (orig impr : List Char) : List (List Char × List Char) :=
  ((splitNN orig).zip (splitNN impr)).map
    (fun pr => (chunkPath pr.1, chunkBody pr.2))

/-- The apply step as the spec describes it: perform the positional writes
in order. -/
def apply_spec (fs : FS) (orig impr : List Char) : FS :=
  (specWrites orig impr).foldl applyStep fs

/-- A response of the generation endpoint: its HTTP status code and, for a
success, the message content `response.json()["choices"][0]["message"]["content"]`. -/
structure Response where
  status : Nat
  content : List Char
deriving DecidableEq, Repr

/-- `improve_code`: posts the bundle and returns the message content on
HTTP 200; on any other status it prints an error and calls `exit(1)`,
modelled as `none`. -/
def improve_code (resp : Response) : Option (List Char) :=
  if resp.status = 200 then some resp.content else none

/-- `generate_commit_message`: on HTTP 200 the stripped message content
with `" -git slut"` appended, on any other status the literal
`"-git slut"`. -/
def generate_commit_message (resp : Response) : List Char :=
  if resp.status = 200 then pyStripWs resp.content ++ " -git slut".data
  else "-git slut".data

/-- `commit_changes`: returns without committing when the diff strips to
nothing; afterwards the commit happens unless `git add -p` fails or no
changes are staged.  The external `git` processes are abstracted by the two
booleans; the returned value records whether a commit was created. -/
def commit_changes (diff : List Char) (gitAddOk stagedChanges : Bool) : Bool :=
  if (pyStripWs diff).isEmpty then false
  else if !gitAddOk then false
  else if !stagedChanges then false
  else true

/-- Models `"\n".join(difflib.unified_diff(a.splitlines(), b.splitlines(),
lineterm=''))` at the level of detail the program inspects.
`difflib.unified_diff` yields nothing exactly when the two line sequences
are equal; when they differ its output begins with the two header lines
`"--- "` and `"+++ "`, which contain non-whitespace, followed by hunk
lines.  The program only ever asks whether the stripped output is empty, so
the hunk lines are represented by the header prefix alone. -/
def unifiedDiffOutput (a b : List Char) : List Char :=
  if pySplitlines a = pySplitlines b then []
  else "--- \n+++ ".data

/-- How a run of `main` ends. -/
inductive RunExit where
  | emptyBundle
  | llmError
  | noDiff
  | completed
deriving DecidableEq, Repr

/-- The observable outcome of one run of `main`: how it ended, the final
repository state, whether a commit was created, whether the generation
endpoint was contacted, and whether the temporary bundle file was created
and later removed. -/
structure RunResult where
  exit : RunExit
  fs : FS
  committed : Bool
  llmContacted : Bool
  tempCreated : Bool
  tempRemoved : Bool
deriving DecidableEq, Repr

/-- The pipeline of `main` from `create_codebase_file` on, with the cloned
repository abstracted by its walk `files`, `.gitignore` lines, and initial
disk state `fs`, and the external collaborators by `resp` (the generation
endpoint) and `gitAddOk` / `stagedChanges` (the `git` calls inside
`commit_changes`).  Mirrors the source order: an empty bundle returns
early (the temporary file was already removed inside
`create_codebase_file`); a non-200 response makes `improve_code` call
`exit(1)` before `main` reaches `os.remove(codebase_file)`, so the
temporary file is not removed on that path; otherwise the temporary file
is removed, the improvements are applied, and an empty unified diff
returns before `commit_changes` is called. -/
def main (repoDir : List Char) (files : List SrcFile)
    (gitignore : List (List Char)) (resp : Response)
    (gitAddOk stagedChanges : Bool) (fs : FS) : RunResult :=
  match create_codebase_file repoDir files gitignore with
  | none => ⟨RunExit.emptyBundle, fs, false, false, true, true⟩
  | some orig =>
    match improve_code resp with
    | none => ⟨RunExit.llmError, fs, false, true, true, false⟩
    | some improved =>
      let fs1 := apply_improvements fs orig improved
      let diffOut := unifiedDiffOutput orig improved
      if (pyStripWs diffOut).isEmpty then
        ⟨RunExit.noDiff, fs1, false, true, true, true⟩
      else
        ⟨RunExit.completed, fs1, commit_changes diffOut gitAddOk stagedChanges,
          true, true, true⟩

/-! ### Lemmas about the split and join primitives -/

theorem splitNN_ne_nil : ∀ l : List Char, splitNN l ≠ []
  | [] => by simp [splitNN]
  | [c] => by simp [splitNN]
  | a :: b :: rest => by
    simp only [splitNN]
    split
    · simp
    · cases h : splitNN (b :: rest) <;> simp

theorem splitChar_ne_nil (sep : Char) : ∀ l : List Char, splitChar sep l ≠ []
  | [] => by simp [splitChar]
  | a :: rest => by
    simp only [splitChar]
    split
    · simp
    · cases h : splitChar sep rest <;> simp

theorem joinChar_splitChar (sep : Char) : ∀ l : List Char,
    joinChar sep (splitChar sep l) = l
  | [] => rfl
  | a :: rest => by
    have ih := joinChar_splitChar sep rest
    simp only [splitChar]
    by_cases ha : a = sep
    · rw [if_pos ha]
      cases hsp : splitChar sep rest with
      | nil => exact absurd hsp (splitChar_ne_nil sep rest)
      | cons h t =>
        rw [hsp] at ih
        simp only [joinChar, List.nil_append]
        rw [ih, ha]
    · rw [if_neg ha]
      cases hsp : splitChar sep rest with
      | nil => exact absurd hsp (splitChar_ne_nil sep rest)
      | cons h t =>
        rw [hsp] at ih
        cases t with
        | nil => simp only [joinChar] at ih ⊢; rw [ih]
        | cons t0 t1 =>
          simp only [joinChar] at ih ⊢
          rw [List.cons_append, ih]

theorem splitChar_append_sep (sep : Char) :
    ∀ (x y : List Char), (∀ a ∈ x, a ≠ sep) →
      splitChar sep (x ++ sep :: y) = x :: splitChar sep y
  | [], y, _ => by simp [splitChar]
  | a :: x', y, h => by
    have ha : a ≠ sep := h a (List.mem_cons_self a x')
    have ih := splitChar_append_sep sep x' y
      (fun b hb => h b (List.mem_cons_of_mem a hb))
    show splitChar sep (a :: (x' ++ sep :: y)) = (a :: x') :: splitChar sep y
    simp only [splitChar]
    rw [if_neg ha, ih]

theorem splitNN_append_sep : ∀ (s t : List Char), noNN (s ++ ['\n']) = true →
    splitNN (s ++ '\n' :: '\n' :: t) = s :: splitNN t
  | [], t, _ => by simp [splitNN]
  | [c], t, h => by
    have hc : c ≠ '\n' := by
      intro hc
      subst hc
      simp [noNN] at h
    show splitNN (c :: '\n' :: '\n' :: t) = [c] :: splitNN t
    simp only [splitNN]
    rw [if_neg (fun hh => hc hh.1)]
    simp
  | a :: b :: s', t, h => by
    rw [List.cons_append, List.cons_append] at h
    have h' := h
    rw [show noNN (a :: b :: (s' ++ ['\n'])) =
        (!(a = '\n' && b = '\n') && noNN (b :: (s' ++ ['\n']))) from rfl,
      Bool.and_eq_true] at h'
    have hab : ¬(a = '\n' ∧ b = '\n') := by
      intro ⟨h1, h2⟩
      subst h1; subst h2
      simp at h'
    have ih := splitNN_append_sep (b :: s') t h'.2
    show splitNN (a :: (b :: s') ++ '\n' :: '\n' :: t) = (a :: b :: s') :: splitNN t
    rw [List.cons_append]
    simp only [splitNN]
    rw [if_neg hab]
    simp only [List.append_eq]
    rw [show (b :: s') ++ '\n' :: '\n' :: t = b :: (s' ++ '\n' :: '\n' :: t) from rfl]
      at ih
    rw [ih]

theorem splitNN_cons_newline_length (t : List Char) (h : t.head? ≠ some '\n') :
    (splitNN ('\n' :: t)).length = (splitNN t).length := by
  cases t with
  | nil => simp [splitNN]
  | cons c t' =>
    have hc : c ≠ '\n' := by
      intro h'
      subst h'
      simp at h
    show (splitNN ('\n' :: c :: t')).length = _
    simp only [splitNN]
    rw [if_neg (fun hh => hc hh.2)]
    cases hsp : splitNN (c :: t') with
    | nil => exact absurd hsp (splitNN_ne_nil _)
    | cons x xs => simp

/-! ### Lemmas about separator-freeness -/

theorem noNN_append_of : ∀ (x t : List Char), (∀ a ∈ x, a ≠ '\n') →
    noNN t = true → noNN (x ++ t) = true
  | [], t, _, ht => ht
  | a :: x', t, hx, ht => by
    have ha : a ≠ '\n' := hx a (List.mem_cons_self a x')
    have ih := noNN_append_of x' t (fun b hb => hx b (List.mem_cons_of_mem a hb)) ht
    rw [List.cons_append]
    cases hxt : x' ++ t with
    | nil => simp [noNN]
    | cons c rest =>
      rw [hxt] at ih
      show noNN (a :: c :: rest) = true
      simp only [noNN, Bool.and_eq_true]
      exact ⟨by simp [ha], ih⟩

theorem noNN_cons_newline (l : List Char) (hh : l.head? ≠ some '\n')
    (hl : noNN l = true) : noNN ('\n' :: l) = true := by
  cases l with
  | nil => rfl
  | cons a r =>
    have ha : a ≠ '\n' := by
      intro h
      subst h
      simp at hh
    show noNN ('\n' :: a :: r) = true
    simp only [noNN, Bool.and_eq_true]
    exact ⟨by simp [ha], hl⟩

theorem noNN_concat_newline : ∀ (c : List Char), noNN c = true →
    c.getLast? ≠ some '\n' → noNN (c ++ ['\n']) = true
  | [], _, _ => rfl
  | [a], _, hl => by
    have ha : a ≠ '\n' := by
      intro h
      subst h
      simp at hl
    show noNN (a :: '\n' :: []) = true
    simp [noNN, ha]
  | a :: b :: r, h, hl => by
    rw [show noNN (a :: b :: r) = (!(a = '\n' && b = '\n') && noNN (b :: r)) from rfl,
      Bool.and_eq_true] at h
    have ih := noNN_concat_newline (b :: r) h.2
      (by rw [List.getLast?_cons_cons] at hl; exact hl)
    show noNN (a :: b :: (r ++ ['\n'])) = true
    simp only [noNN, Bool.and_eq_true]
    refine ⟨h.1, ?_⟩
    exact ih

theorem noNN_tail : ∀ (a : Char) (l : List Char), noNN (a :: l) = true →
    noNN l = true := by
  intro a l h
  cases l with
  | nil => rfl
  | cons b r =>
    rw [show noNN (a :: b :: r) = (!(a = '\n' && b = '\n') && noNN (b :: r)) from rfl,
      Bool.and_eq_true] at h
    exact h.2

/-! ### Lemmas about the bundle document -/

theorem docOf_nil : docOf [] = [] := rfl

theorem docOf_cons (f : SrcFile) (fs : List SrcFile) :
    docOf (f :: fs) = bodyFor f ++ '\n' :: '\n' :: docOf fs := by
  show entryFor f ++ docOf fs = _
  rw [entryFor, List.append_assoc]
  rfl

theorem docOf_head? (fs : List SrcFile) :
    docOf fs = [] ∨ (docOf fs).head? = some '/' := by
  cases fs with
  | nil => exact Or.inl rfl
  | cons f rest =>
    right
    rw [docOf_cons, bodyFor]
    rfl

theorem mem_headerChars (p : List Char) (hp : ¬ '\n' ∈ p) :
    ∀ a ∈ '/' :: '/' :: ' ' :: p, a ≠ '\n' := by
  intro a ha hn
  subst hn
  have hmem : ('\n' : Char) ∈ p := by
    simpa using ha
  exact hp hmem

theorem noNN_bodyFor (f : SrcFile) (hp : ¬ '\n' ∈ f.path)
    (hc : noNN f.content = true) (hh : f.content.head? ≠ some '\n') :
    noNN (bodyFor f) = true := by
  rw [bodyFor, show f.path ++ '\n' :: f.content = f.path ++ '\n' :: f.content from rfl]
  rw [show ('/' :: '/' :: ' ' :: (f.path ++ '\n' :: f.content) : List Char)
      = ('/' :: '/' :: ' ' :: f.path) ++ '\n' :: f.content from by simp]
  exact noNN_append_of _ _ (mem_headerChars f.path hp)
    (noNN_cons_newline f.content hh hc)

theorem noNN_bodyFor_concat (f : SrcFile) (hgp : goodPath f.path = true)
    (hgc : goodContent f.content = true) :
    noNN (bodyFor f ++ ['\n']) = true := by
  rw [bodyFor]
  rw [show ('/' :: '/' :: ' ' :: (f.path ++ '\n' :: f.content) : List Char) ++ ['\n']
      = ('/' :: '/' :: ' ' :: f.path) ++ '\n' :: (f.content ++ ['\n']) from by simp]
  rw [goodPath, Bool.and_eq_true, Bool.and_eq_true, Bool.and_eq_true] at hgp
  have hp : ¬ '\n' ∈ f.path := by
    have := hgp.1.1.2
    simpa using this
  exact noNN_append_of _ _ (mem_headerChars f.path hp) hgc

theorem splitNN_docOf : ∀ (fs : List SrcFile),
    (∀ f ∈ fs, goodPath f.path = true ∧ goodContent f.content = true) →
    splitNN (docOf fs) = fs.map bodyFor ++ [[]]
  | [], _ => by simp [docOf, splitNN]
  | f :: rest, h => by
    have hf := h f (List.mem_cons_self f rest)
    have ih := splitNN_docOf rest (fun g hg => h g (List.mem_cons_of_mem f hg))
    rw [docOf_cons, splitNN_append_sep _ _ (noNN_bodyFor_concat f hf.1 hf.2), ih]
    simp

theorem splitNN_sep_length (s t : List Char) (hs : noNN s = true)
    (ht : t.head? ≠ some '\n') :
    (splitNN (s ++ '\n' :: '\n' :: t)).length = (splitNN t).length + 1 := by
  cases hr : s.reverse with
  | nil =>
    have hs0 : s = [] := by
      have := congrArg List.reverse hr
      simpa using this
    subst hs0
    rw [List.nil_append]
    have hs2 : splitNN ('\n' :: '\n' :: t) = [] :: splitNN t := by
      have h2 := splitNN_append_sep [] t rfl
      simpa using h2
    rw [hs2]
    simp
  | cons b rb =>
    by_cases hb : b = '\n'
    · subst hb
      have hs0 : s = rb.reverse ++ ['\n'] := by
        have := congrArg List.reverse hr
        simpa using this
      have hnn : noNN (rb.reverse ++ ['\n']) = true := by
        rw [← hs0]
        exact hs
      rw [hs0, List.append_assoc]
      rw [show (['\n'] ++ '\n' :: '\n' :: t : List Char)
          = '\n' :: '\n' :: ('\n' :: t) from rfl]
      rw [splitNN_append_sep _ _ hnn]
      rw [List.length_cons, splitNN_cons_newline_length t ht]
    · have hlast : s.getLast? ≠ some '\n' := by
        rw [← List.head?_reverse, hr]
        simp [hb]
      rw [splitNN_append_sep s t (noNN_concat_newline s hs hlast)]
      simp

theorem splitNN_docOf_length : ∀ (fs : List SrcFile),
    (∀ f ∈ fs, ¬ '\n' ∈ f.path ∧ noNN f.content = true
      ∧ f.content.head? ≠ some '\n') →
    (splitNN (docOf fs)).length = fs.length + 1
  | [], _ => by simp [docOf, splitNN]
  | f :: rest, h => by
    have hf := h f (List.mem_cons_self f rest)
    have ih := splitNN_docOf_length rest (fun g hg => h g (List.mem_cons_of_mem f hg))
    rw [docOf_cons]
    have hht : (docOf rest).head? ≠ some '\n' := by
      rcases docOf_head? rest with h0 | h0
      · rw [h0]
        simp
      · rw [h0]
        simp
    rw [splitNN_sep_length (bodyFor f) (docOf rest)
      (noNN_bodyFor f hf.1 hf.2.1 hf.2.2) hht, ih]
    simp

/-! ### Recovering path and content from a chunk -/

theorem goodPath_ne_nil (p : List Char) (h : goodPath p = true) : p ≠ [] := by
  intro hnil
  subst hnil
  simp [goodPath] at h

theorem goodPath_not_mem_newline (p : List Char) (h : goodPath p = true) :
    ¬ '\n' ∈ p := by
  rw [goodPath, Bool.and_eq_true, Bool.and_eq_true, Bool.and_eq_true] at h
  simpa using h.1.1.2

theorem dropWhile_eq_self_of_head (f : Char → Bool) (l : List Char)
    (h : ∀ c, l.head? = some c → f c = false) : l.dropWhile f = l := by
  cases l with
  | nil => rfl
  | cons a t =>
    rw [List.dropWhile_cons, h a rfl]
    simp

theorem pyStrip_header (p : List Char) (hgp : goodPath p = true) :
    pyStrip ['/', ' '] ('/' :: '/' :: ' ' :: p) = p := by
  rw [goodPath, Bool.and_eq_true, Bool.and_eq_true, Bool.and_eq_true] at hgp
  obtain ⟨⟨⟨hne, _⟩, hhead⟩, hlast⟩ := hgp
  cases p with
  | nil => simp at hne
  | cons h0 t =>
    rw [List.headD_cons, edgeOk, Bool.and_eq_true] at hhead
    have h0slash : h0 ≠ '/' := by simpa using hhead.1
    have h0space : h0 ≠ ' ' := by simpa using hhead.2
    cases hr : (h0 :: t).reverse with
    | nil => simp at hr
    | cons b rb =>
      have hblast : (h0 :: t).getLastD '/' = b := by
        rw [List.getLastD_eq_getLast?, ← List.head?_reverse, hr]
        rfl
      rw [hblast, edgeOk, Bool.and_eq_true] at hlast
      have hbslash : b ≠ '/' := by simpa using hlast.1
      have hbspace : b ≠ ' ' := by simpa using hlast.2
      rw [pyStrip]
      have hd1 : List.dropWhile (fun c => decide (c ∈ (['/', ' '] : List Char)))
          ('/' :: '/' :: ' ' :: h0 :: t) = h0 :: t := by
        rw [List.dropWhile_cons]
        rw [if_pos (by decide)]
        rw [List.dropWhile_cons]
        rw [if_pos (by decide)]
        rw [List.dropWhile_cons]
        rw [if_pos (by decide)]
        exact dropWhile_eq_self_of_head _ _
          (fun c hc => by
            rw [List.head?_cons, Option.some_inj] at hc
            subst hc
            simp [h0slash, h0space])
      rw [hd1, hr]
      have hd2 : List.dropWhile (fun c => decide (c ∈ (['/', ' '] : List Char)))
          (b :: rb) = b :: rb := by
        exact dropWhile_eq_self_of_head _ _
          (fun c hc => by
            rw [List.head?_cons, Option.some_inj] at hc
            subst hc
            simp [hbslash, hbspace])
      rw [hd2, ← hr, List.reverse_reverse]

theorem splitChar_bodyFor (f : SrcFile) (hp : ¬ '\n' ∈ f.path) :
    splitChar '\n' (bodyFor f)
      = ('/' :: '/' :: ' ' :: f.path) :: splitChar '\n' f.content := by
  rw [bodyFor]
  rw [show ('/' :: '/' :: ' ' :: (f.path ++ '\n' :: f.content) : List Char)
      = ('/' :: '/' :: ' ' :: f.path) ++ '\n' :: f.content from by simp]
  exact splitChar_append_sep '\n' _ _ (mem_headerChars f.path hp)

theorem chunkPath_bodyFor (f : SrcFile) (hgp : goodPath f.path = true) :
    chunkPath (bodyFor f) = f.path := by
  rw [chunkPath, splitChar_bodyFor f (goodPath_not_mem_newline _ hgp)]
  rw [List.headD_cons]
  exact pyStrip_header f.path hgp

theorem chunkBody_bodyFor (f : SrcFile) (hp : ¬ '\n' ∈ f.path) :
    chunkBody (bodyFor f) = f.content := by
  rw [chunkBody, splitChar_bodyFor f hp]
  exact joinChar_splitChar '\n' f.content

theorem chunkPath_nil : chunkPath [] = [] := rfl

theorem chunkBody_nil : chunkBody [] = [] := rfl

/-! ### Lemmas about the file-system model and the apply step -/

theorem lookupFile_setFile_self : ∀ (l : List (List Char × List Char)) (p c : List Char),
    lookupFile (setFile l p c) p = some c
  | [], p, c => by simp [setFile, lookupFile]
  | e :: rest, p, c => by
    by_cases h : e.1 = p
    · simp [setFile, h, lookupFile]
    · simp only [setFile, if_neg h, lookupFile]
      exact lookupFile_setFile_self rest p c

theorem lookupFile_setFile_ne :
    ∀ (l : List (List Char × List Char)) (p c q : List Char), q ≠ p →
      lookupFile (setFile l p c) q = lookupFile l q
  | [], p, c, q, hq => by
    simp only [setFile, lookupFile]
    rw [if_neg (fun hh => hq hh.symm)]
  | e :: rest, p, c, q, hq => by
    by_cases h : e.1 = p
    · simp only [setFile, if_pos h, lookupFile]
      rw [if_neg (fun hh => hq hh.symm),
        if_neg (show ¬ e.1 = q by rw [h]; exact fun hh => hq hh.symm)]
    · simp only [setFile, if_neg h, lookupFile]
      rw [lookupFile_setFile_ne rest p c q hq]

theorem applyStep_files_dirs (fs : FS) (w : List Char × List Char) :
    applyStep fs w = fs ∨
      applyStep fs w = ⟨setFile fs.files w.1 w.2, fs.dirs ++ ancestors w.1⟩ := by
  rw [applyStep]
  split
  · exact Or.inl rfl
  · exact Or.inr rfl

theorem applyStep_empty (fs : FS) : applyStep fs ([], []) = fs := by
  rw [applyStep, isDir]
  simp

theorem lookup_foldl_applyStep_of_notin :
    ∀ (ws : List (List Char × List Char)) (fs : FS) (p : List Char),
      (∀ w ∈ ws, w.1 ≠ p) →
      lookupFile (ws.foldl applyStep fs).files p = lookupFile fs.files p
  | [], fs, p, _ => rfl
  | w :: rest, fs, p, h => by
    rw [List.foldl_cons]
    rw [lookup_foldl_applyStep_of_notin rest (applyStep fs w) p
      (fun w' hw' => h w' (List.mem_cons_of_mem w hw'))]
    rcases applyStep_files_dirs fs w with heq | heq
    · rw [heq]
    · rw [heq]
      exact lookupFile_setFile_ne fs.files w.1 w.2 p
        (fun hh => h w (List.mem_cons_self w rest) hh.symm)

theorem lookup_foldl_applyStep_mem :
    ∀ (ws : List (List Char × List Char)) (fs : FS) (p c : List Char),
      (p, c) ∈ ws → (ws.map Prod.fst).Nodup → p ≠ [] → ¬ p ∈ fs.dirs →
      (∀ w ∈ ws, ¬ p ∈ ancestors w.1) →
      lookupFile (ws.foldl applyStep fs).files p = some c
  | [], _, _, _, hmem, _, _, _, _ => absurd hmem (List.not_mem_nil _)
  | w :: rest, fs, p, c, hmem, hnodup, hne, hdirs, hanc => by
    rw [List.foldl_cons]
    rw [List.map_cons, List.nodup_cons] at hnodup
    rcases List.mem_cons.mp hmem with heq | hmem'
    · subst heq
      have hskip : isDir fs p = false := by
        rw [isDir]
        simp [hne, hdirs]
      have hstep : applyStep fs (p, c) = ⟨setFile fs.files p c, fs.dirs ++ ancestors p⟩ := by
        rw [applyStep, hskip]
        simp
      rw [hstep]
      rw [lookup_foldl_applyStep_of_notin rest _ p
        (fun w' hw' hh => by
          have hm : w'.1 ∈ List.map Prod.fst rest := List.mem_map_of_mem Prod.fst hw'
          rw [hh] at hm
          exact hnodup.1 hm)]
      exact lookupFile_setFile_self fs.files p c
    · have hwp : w.1 ≠ p := by
        intro hh
        have hm : (p, c).1 ∈ List.map Prod.fst rest := List.mem_map_of_mem Prod.fst hmem'
        rw [← hh] at hm
        exact hnodup.1 hm
      have hdirs' : ¬ p ∈ (applyStep fs w).dirs := by
        rcases applyStep_files_dirs fs w with heq | heq
        · rw [heq]
          exact hdirs
        · rw [heq]
          intro hh
          rcases List.mem_append.mp hh with hh' | hh'
          · exact hdirs hh'
          · exact hanc w (List.mem_cons_self w rest) hh'
      exact lookup_foldl_applyStep_mem rest (applyStep fs w) p c hmem' hnodup.2
        hne hdirs' (fun w' hw' => hanc w' (List.mem_cons_of_mem w hw'))

theorem apply_eq_spec (fs : FS) (orig impr : List Char) :
    apply_improvements fs orig impr = apply_spec fs orig impr := by
  rw [apply_spec, specWrites, List.foldl_map]
  rfl

theorem zip_same {α : Type} : ∀ (l : List α), l.zip l = l.map (fun x => (x, x))
  | [] => rfl
  | a :: rest => by
    rw [List.zip_cons_cons, List.map_cons, zip_same rest]

theorem specWrites_doc_doc (fs : List SrcFile)
    (h : ∀ f ∈ fs, goodPath f.path = true ∧ goodContent f.content = true) :
    specWrites (docOf fs) (docOf fs)
      = fs.map (fun f => (f.path, f.content)) ++ [([], [])] := by
  rw [specWrites, splitNN_docOf fs h, zip_same, List.map_map, List.map_append,
    List.map_map]
  have h1 : List.map (((fun pr : List Char × List Char =>
        (chunkPath pr.1, chunkBody pr.2)) ∘ (fun x => (x, x))) ∘ bodyFor) fs
      = List.map (fun f => (f.path, f.content)) fs := by
    apply List.map_congr_left
    intro f hf
    show (chunkPath (bodyFor f), chunkBody (bodyFor f)) = (f.path, f.content)
    rw [chunkPath_bodyFor f (h f hf).1,
      chunkBody_bodyFor f (goodPath_not_mem_newline _ (h f hf).1)]
  rw [h1]
  rfl

theorem docOf_ne_nil (f : SrcFile) (fs : List SrcFile) : docOf (f :: fs) ≠ [] := by
  rw [docOf_cons, bodyFor]
  simp

theorem create_some (repoDir : List Char) (files : List SrcFile)
    (gitignore : List (List Char))
    (h : files.filter (qualifies repoDir (get_ignored_files ++ gitignore)) ≠ []) :
    create_codebase_file repoDir files gitignore
      = some (bundleDoc repoDir files gitignore) := by
  have hne : (bundleDoc repoDir files gitignore).isEmpty = false := by
    rw [bundleDoc]
    cases hf : files.filter (qualifies repoDir (get_ignored_files ++ gitignore)) with
    | nil => exact absurd hf h
    | cons f rest =>
      cases hd : docOf (f :: rest) with
      | nil => exact absurd hd (docOf_ne_nil f rest)
      | cons a l => rfl
  simp [create_codebase_file, hne]

theorem getElem?_zip {α β : Type} : ∀ (l₁ : List α) (l₂ : List β) (n : Nat),
    (l₁.zip l₂)[n]? = l₁[n]?.bind (fun a => l₂[n]?.map (fun b => (a, b)))
  | [], l₂, n => by simp
  | a :: l₁, [], n => by
    cases h : (a :: l₁)[n]? <;> simp [List.zip_nil_right, h]
  | a :: l₁, b :: l₂, 0 => by simp [List.zip_cons_cons]
  | a :: l₁, b :: l₂, n + 1 => by
    rw [List.zip_cons_cons]
    simp only [List.getElem?_cons_succ]
    exact getElem?_zip l₁ l₂ n

/-! ### Claim theorems -/

/-- Claim C1, counterexample: the round trip is not byte-for-byte faithful
for every readable UTF-8 tree.  Bundling the single file `a.txt` with
content `"hello\n"` and applying the unmodified document back writes
`"hello"` — the trailing newline is absorbed into the entry separator and
lost. -/
theorem bundle_roundtrip_loses_trailing_newline :
    create_codebase_file "repo".data [⟨"a.txt".data, "hello\n".data, true⟩] []
      = some "// a.txt\nhello\n\n\n".data
    ∧ lookupFile (apply_improvements ⟨[("a.txt".data, "hello\n".data)], []⟩
        "// a.txt\nhello\n\n\n".data "// a.txt\nhello\n\n\n".data).files "a.txt".data
      = some "hello".data
    ∧ ("hello".data : List Char) ≠ "hello\n".data := by
  refine ⟨by decide, by decide, by decide⟩

/-- Claim C1 (amended): for every walk whose bundled files have paths that
are nonempty, newline-free and do not begin or end in `/` or space, and
contents whose entry contains the separator exactly once (nonempty, no
`"\n\n"`, not beginning or ending with a newline), with pairwise distinct
paths none of which is a directory ancestor of another or an existing
directory, bundling with `create_codebase_file` and applying the unmodified
document via `apply_improvements` reproduces on disk the content of every
bundled file; in particular the `a.txt`/`b/c.txt` scenario restores both
files unchanged. -/
theorem bundle_roundtrip_restores_files
    (repoDir : List Char) (files : List SrcFile) (gitignore : List (List Char))
    (fs : FS)
    (hgood : ∀ f ∈ files.filter (qualifies repoDir (get_ignored_files ++ gitignore)),
      goodPath f.path = true ∧ goodContent f.content = true)
    (hnodup : ((files.filter (qualifies repoDir (get_ignored_files ++ gitignore))).map
      SrcFile.path).Nodup)
    (hanc : ∀ f ∈ files.filter (qualifies repoDir (get_ignored_files ++ gitignore)),
      ∀ g ∈ files.filter (qualifies repoDir (get_ignored_files ++ gitignore)),
        ¬ f.path ∈ ancestors g.path)
    (hdirs : ∀ f ∈ files.filter (qualifies repoDir (get_ignored_files ++ gitignore)),
      ¬ f.path ∈ fs.dirs)
    (hne : files.filter (qualifies repoDir (get_ignored_files ++ gitignore)) ≠ []) :
    create_codebase_file repoDir files gitignore
      = some (bundleDoc repoDir files gitignore)
    ∧ ∀ f ∈ files.filter (qualifies repoDir (get_ignored_files ++ gitignore)),
        lookupFile (apply_improvements fs (bundleDoc repoDir files gitignore)
          (bundleDoc repoDir files gitignore)).files f.path = some f.content := by
  refine ⟨create_some repoDir files gitignore hne, ?_⟩
  intro f hf
  rw [apply_eq_spec, apply_spec]
  rw [show bundleDoc repoDir files gitignore
      = docOf (files.filter (qualifies repoDir (get_ignored_files ++ gitignore)))
    from rfl]
  rw [specWrites_doc_doc _ hgood, List.foldl_append, List.foldl_cons, List.foldl_nil,
    applyStep_empty]
  apply lookup_foldl_applyStep_mem
  · exact List.mem_map_of_mem _ hf
  · have hmm : List.map Prod.fst
        ((files.filter (qualifies repoDir (get_ignored_files ++ gitignore))).map
          (fun f => (f.path, f.content)))
        = (files.filter (qualifies repoDir (get_ignored_files ++ gitignore))).map
          SrcFile.path := by
      rw [List.map_map]
      rfl
    rw [hmm]
    exact hnodup
  · exact goodPath_ne_nil _ (hgood f hf).1
  · exact hdirs f hf
  · intro w hw
    rcases List.mem_map.mp hw with ⟨g, hg, rfl⟩
    exact hanc f hf g hg

/-- Claim C1, witness: the two-file scenario — `a.txt` containing `hello`
and `b/c.txt` containing `world` — bundles to the expected two tagged
entries in walk order, and unbundling an identical copy restores both
files. -/
theorem bundle_roundtrip_restores_files_witness :
    create_codebase_file "repo".data
      [⟨"a.txt".data, "hello".data, true⟩, ⟨"b/c.txt".data, "world".data, true⟩] []
      = some "// a.txt\nhello\n\n// b/c.txt\nworld\n\n".data
    ∧ lookupFile (apply_improvements ⟨[], []⟩
        "// a.txt\nhello\n\n// b/c.txt\nworld\n\n".data
        "// a.txt\nhello\n\n// b/c.txt\nworld\n\n".data).files "a.txt".data
      = some "hello".data
    ∧ lookupFile (apply_improvements ⟨[], []⟩
        "// a.txt\nhello\n\n// b/c.txt\nworld\n\n".data
        "// a.txt\nhello\n\n// b/c.txt\nworld\n\n".data).files "b/c.txt".data
      = some "world".data := by
  have h := bundle_roundtrip_restores_files "repo".data
    [⟨"a.txt".data, "hello".data, true⟩, ⟨"b/c.txt".data, "world".data, true⟩]
    [] ⟨[], []⟩ (by decide) (by decide) (by decide) (by decide) (by decide)
  have hdoc : bundleDoc "repo".data
      [⟨"a.txt".data, "hello".data, true⟩, ⟨"b/c.txt".data, "world".data, true⟩] []
      = "// a.txt\nhello\n\n// b/c.txt\nworld\n\n".data := by decide
  have h1 := h.2 ⟨"a.txt".data, "hello".data, true⟩ (by decide)
  have h2 := h.2 ⟨"b/c.txt".data, "world".data, true⟩ (by decide)
  rw [hdoc] at h1 h2
  refine ⟨?_, h1, h2⟩
  rw [h.1, hdoc]

/-- Claim C2: refuted — the ignore set is ineffective.  The comparison at
line 109 prefixes `repo_dir` onto the ignore pattern but compares it with a
path relative to `repo_dir`, so for any repository directory other than
`.` no pattern ever matches: `.DS_Store` is a built-in ignored name, yet
the bundle produced for a repository `repo` containing exactly the file
`.DS_Store` carries a tagged entry for it. -/
theorem ignored_file_still_bundled :
    ".DS_Store".data ∈ get_ignored_files
    ∧ isIgnored "repo".data get_ignored_files ".DS_Store".data = false
    ∧ create_codebase_file "repo".data [⟨".DS_Store".data, "x".data, true⟩] []
      = some "// .DS_Store\nx\n\n".data := by
  refine ⟨by decide, by decide, by decide⟩

/-- Claim C3, counterexample: the bundle of the single file `p.txt` whose
content `"\nx"` contains no `"\n\n"` splits into three pieces
(`"// p.txt"`, `"x"`, `""`), not one — the header's trailing newline and
the content's leading newline form a spurious separator, and the document
always ends in the separator, so the piece count matches neither the
number of bundled files nor that number plus one. -/
theorem bundle_split_count_counterexample :
    noNN ('\n' :: 'x' :: []) = true
    ∧ bundleDoc "repo".data [⟨"p.txt".data, '\n' :: 'x' :: [], true⟩] []
      = "// p.txt\n\nx\n\n".data
    ∧ splitNN (bundleDoc "repo".data [⟨"p.txt".data, '\n' :: 'x' :: [], true⟩] [])
      = ["// p.txt".data, ['x'], []]
    ∧ (splitNN (bundleDoc "repo".data
        [⟨"p.txt".data, '\n' :: 'x' :: [], true⟩] [])).length ≠ 1
    ∧ (splitNN (bundleDoc "repo".data
        [⟨"p.txt".data, '\n' :: 'x' :: [], true⟩] [])).length ≠ 1 + 1 := by
  refine ⟨by decide, by decide, by decide, by decide, by decide⟩

/-- Claim C3 (amended): when no bundled file's content contains `"\n\n"`
or begins with a newline (and paths are newline-free), splitting the
bundle document on the separator yields exactly one piece more than the
number of bundled files: one piece per entry followed by the leftover
piece after the final separator. -/
theorem bundle_split_length
    (repoDir : List Char) (files : List SrcFile) (gitignore : List (List Char))
    (h : ∀ f ∈ files.filter (qualifies repoDir (get_ignored_files ++ gitignore)),
      ¬ '\n' ∈ f.path ∧ noNN f.content = true ∧ f.content.head? ≠ some '\n') :
    (splitNN (bundleDoc repoDir files gitignore)).length
      = (files.filter (qualifies repoDir (get_ignored_files ++ gitignore))).length
        + 1 :=
  splitNN_docOf_length _ h

/-- Claim C3, witness: for the two-file `hello`/`world` bundle the split
yields three pieces: the two entries and the trailing leftover. -/
theorem bundle_split_length_witness :
    (splitNN (bundleDoc "repo".data
      [⟨"a.txt".data, "hello".data, true⟩, ⟨"b/c.txt".data, "world".data, true⟩]
      [])).length = 3 := by
  have h := bundle_split_length "repo".data
    [⟨"a.txt".data, "hello".data, true⟩, ⟨"b/c.txt".data, "world".data, true⟩]
    [] (by decide)
  rw [h]
  decide

/-- Claim C4: `apply_improvements` coincides with the spec's parsing
policy `apply_spec` — split both documents on the blank-line separator,
pair chunks positionally, write the lines after the first line of the
n-th replacement chunk to the path named (after stripping the header
decoration) by the first line of the n-th original chunk — with no
requirement that the two documents have the same number of chunks: the
write list always has length `min` of the two chunk counts, and its n-th
element pairs the n-th original chunk's path with the n-th replacement
chunk's content. -/
theorem apply_improvements_positional (orig impr : List Char) (fs : FS) :
    apply_improvements fs orig impr = apply_spec fs orig impr
    ∧ (specWrites orig impr).length
      = min (splitNN orig).length (splitNN impr).length
    ∧ ∀ n : Nat, (specWrites orig impr)[n]?
        = ((splitNN orig)[n]?).bind
            (fun o => ((splitNN impr)[n]?).map (fun i => (chunkPath o, chunkBody i))) := by
  refine ⟨apply_eq_spec fs orig impr, ?_, ?_⟩
  · rw [specWrites, List.length_map, List.length_zip]
  · intro n
    rw [specWrites, List.getElem?_map, getElem?_zip]
    cases ho : (splitNN orig)[n]? <;> cases hi : (splitNN impr)[n]? <;> simp

/-- Claim C9: when the replacement document splits into fewer chunks than
the original, only the first `n` positional pairs are processed (the write
list has length `n`), and the file of any remaining original entry whose
path is not also a target of a processed pair keeps its old content —
`apply_improvements` is total, so no error is reported for the dropped
entries. -/
theorem truncated_entries_unchanged (orig impr : List Char) (fs : FS)
    (k : Nat) (p : List Char)
    (hcount : (splitNN impr).length < (splitNN orig).length)
    (hk : (splitNN impr).length ≤ k) (hkm : k < (splitNN orig).length)
    (hp : p = chunkPath ((splitNN orig).getD k []))
    (hfresh : ∀ pr ∈ (splitNN orig).zip (splitNN impr), chunkPath pr.1 ≠ p) :
    (specWrites orig impr).length = (splitNN impr).length
    ∧ lookupFile (apply_improvements fs orig impr).files p
      = lookupFile fs.files p := by
  constructor
  · rw [specWrites, List.length_map, List.length_zip]
    exact Nat.min_eq_right (Nat.le_of_lt hcount)
  · rw [apply_eq_spec, apply_spec]
    apply lookup_foldl_applyStep_of_notin
    intro w hw
    rcases List.mem_map.mp hw with ⟨pr, hpr, rfl⟩
    exact hfresh pr hpr

/-- Claim C9, witness: an original bundle with three entries paired with a
replacement of one entry (two chunks): the third original entry `c.txt` is
beyond the two processed pairs and keeps its old content. -/
theorem truncated_entries_unchanged_witness :
    (specWrites "// a.txt\nX\n\n// b.txt\nY\n\n// c.txt\nW\n\n".data
      "// a.txt\nZ\n\n".data).length = 2
    ∧ lookupFile (apply_improvements ⟨[("c.txt".data, "old".data)], []⟩
        "// a.txt\nX\n\n// b.txt\nY\n\n// c.txt\nW\n\n".data
        "// a.txt\nZ\n\n".data).files "c.txt".data = some "old".data := by
  have h := truncated_entries_unchanged
    "// a.txt\nX\n\n// b.txt\nY\n\n// c.txt\nW\n\n".data
    "// a.txt\nZ\n\n".data ⟨[("c.txt".data, "old".data)], []⟩ 2 "c.txt".data
    (by decide) (by decide) (by decide) (by decide) (by decide)
  refine ⟨h.1.trans (by decide), h.2.trans (by decide)⟩

/-- Claim C5: when the bundle is nonempty and the generation endpoint
answers with any status other than 200, the run aborts inside
`improve_code`: the final disk state is the initial one (no file was
rewritten by `apply_improvements`), no commit is attempted, and the run
exits on the `llmError` path. -/
theorem llm_failure_aborts_run (repoDir : List Char) (files : List SrcFile)
    (gitignore : List (List Char)) (resp : Response)
    (gitAddOk stagedChanges : Bool) (fs : FS)
    (hbundle : files.filter (qualifies repoDir (get_ignored_files ++ gitignore)) ≠ [])
    (hstatus : resp.status ≠ 200) :
    main repoDir files gitignore resp gitAddOk stagedChanges fs
      = ⟨RunExit.llmError, fs, false, true, true, false⟩ := by
  simp [main, create_some repoDir files gitignore hbundle, improve_code, hstatus]

/-- Claim C5, witness: a 500 response for a one-file repository leaves the
disk untouched and commits nothing. -/
theorem llm_failure_aborts_run_witness :
    main "repo".data [⟨"a.txt".data, "x".data, true⟩] [] ⟨500, []⟩ true true
      ⟨[], []⟩
      = ⟨RunExit.llmError, ⟨[], []⟩, false, true, true, false⟩ :=
  llm_failure_aborts_run "repo".data [⟨"a.txt".data, "x".data, true⟩] []
    ⟨500, []⟩ true true ⟨[], []⟩ (by decide) (by decide)

/-- Claim C6: refuted — the temporary bundle file is not removed on the
generation-endpoint failure path.  `improve_code` calls `exit(1)` on a
non-200 response before `main` reaches `os.remove(codebase_file)`, so for
a run whose endpoint answers 500 the temporary file is created but never
removed. -/
theorem temp_file_not_removed_on_llm_failure :
    (main "repo".data [⟨"a.txt".data, "x".data, true⟩] [] ⟨500, []⟩ true true
      ⟨[], []⟩).tempCreated = true
    ∧ (main "repo".data [⟨"a.txt".data, "x".data, true⟩] [] ⟨500, []⟩ true true
      ⟨[], []⟩).tempRemoved = false := by
  refine ⟨by decide, by decide⟩

/-- Claim C7: when no visited file qualifies (each is ignored or
unreadable), `create_codebase_file` removes its temporary file and returns
`None`, and `main` then aborts cleanly: the endpoint is never contacted,
the disk is untouched, and nothing is committed. -/
theorem empty_bundle_aborts_cleanly (repoDir : List Char) (files : List SrcFile)
    (gitignore : List (List Char)) (resp : Response)
    (gitAddOk stagedChanges : Bool) (fs : FS)
    (h : ∀ f ∈ files, qualifies repoDir (get_ignored_files ++ gitignore) f = false) :
    create_codebase_file repoDir files gitignore = none
    ∧ main repoDir files gitignore resp gitAddOk stagedChanges fs
      = ⟨RunExit.emptyBundle, fs, false, false, true, true⟩ := by
  have hfil : files.filter (qualifies repoDir (get_ignored_files ++ gitignore)) = [] :=
    List.filter_eq_nil_iff.mpr (fun f hf => by simp [h f hf])
  have hnone : create_codebase_file repoDir files gitignore = none := by
    simp [create_codebase_file, bundleDoc, hfil, docOf]
  exact ⟨hnone, by simp [main, hnone]⟩

/-- Claim C7, witness: a repository whose only file is unreadable as text
produces no bundle and the run aborts before contacting the endpoint. -/
theorem empty_bundle_aborts_cleanly_witness :
    create_codebase_file "repo".data [⟨"bin.dat".data, "x".data, false⟩] [] = none
    ∧ main "repo".data [⟨"bin.dat".data, "x".data, false⟩] [] ⟨200, "y".data⟩
        true true ⟨[], []⟩
      = ⟨RunExit.emptyBundle, ⟨[], []⟩, false, false, true, true⟩ :=
  empty_bundle_aborts_cleanly "repo".data [⟨"bin.dat".data, "x".data, false⟩] []
    ⟨200, "y".data⟩ true true ⟨[], []⟩ (by decide)

/-- Claim C8: an empty unified diff prevents any commit.
`commit_changes` itself returns without committing whenever the diff
strips to nothing, and `main` ends without a commit whenever the original
bundle and the endpoint's reply have equal line sequences — the condition
under which `difflib.unified_diff` produces no output. -/
theorem empty_diff_prevents_commit :
    (∀ (diff : List Char) (gitAddOk stagedChanges : Bool),
      (pyStripWs diff).isEmpty = true →
      commit_changes diff gitAddOk stagedChanges = false)
    ∧ ∀ (repoDir : List Char) (files : List SrcFile)
        (gitignore : List (List Char)) (resp : Response)
        (gitAddOk stagedChanges : Bool) (fs : FS),
        pySplitlines (bundleDoc repoDir files gitignore)
          = pySplitlines resp.content →
        (main repoDir files gitignore resp gitAddOk stagedChanges fs).committed
          = false := by
  constructor
  · intro diff a s h
    rw [commit_changes, if_pos h]
  · intro repoDir files gitignore resp a s fs hdiff
    by_cases hb : files.filter (qualifies repoDir (get_ignored_files ++ gitignore)) = []
    · have hnone : create_codebase_file repoDir files gitignore = none := by
        simp [create_codebase_file, bundleDoc, hb, docOf]
      simp [main, hnone]
    · by_cases hst : resp.status = 200
      · simp [main, create_some repoDir files gitignore hb, improve_code, hst,
          unifiedDiffOutput, hdiff, pyStripWs, pyStrip]
      · simp [main, create_some repoDir files gitignore hb, improve_code, hst]

/-- Claim C8, witness: `commit_changes` refuses a whitespace-only diff,
and a run whose endpoint echoes the bundle back commits nothing. -/
theorem empty_diff_prevents_commit_witness :
    commit_changes "  \n ".data true true = false
    ∧ (main "repo".data [⟨"a.txt".data, "x".data, true⟩] []
        ⟨200, "// a.txt\nx\n\n".data⟩ true true ⟨[], []⟩).committed = false := by
  refine ⟨empty_diff_prevents_commit.1 "  \n ".data true true (by decide),
    empty_diff_prevents_commit.2 "repo".data [⟨"a.txt".data, "x".data, true⟩] []
      ⟨200, "// a.txt\nx\n\n".data⟩ true true ⟨[], []⟩ (by decide)⟩

/-- Claim C10: `generate_commit_message` always returns a string ending in
`"-git slut"`: on a 200 response it is the stripped model message with
`" -git slut"` appended, and on any other status it is exactly
`"-git slut"` — the function never fails. -/
theorem commit_message_always_tagged (resp : Response) :
    List.IsSuffix "-git slut".data (generate_commit_message resp)
    ∧ (resp.status = 200 →
        generate_commit_message resp = pyStripWs resp.content ++ " -git slut".data)
    ∧ (resp.status ≠ 200 → generate_commit_message resp = "-git slut".data) := by
  by_cases h : resp.status = 200
  · refine ⟨?_, fun _ => by rw [generate_commit_message, if_pos h],
      fun hn => absurd h hn⟩
    rw [generate_commit_message, if_pos h]
    refine ⟨pyStripWs resp.content ++ [' '], ?_⟩
    rw [List.append_assoc]
    have hsp : ([' '] ++ "-git slut".data : List Char) = " -git slut".data := by
      decide
    rw [hsp]
  · refine ⟨?_, fun h200 => absurd h200 h,
      fun _ => by rw [generate_commit_message, if_neg h]⟩
    rw [generate_commit_message, if_neg h]

/-- Claim C10, witness: a 200 response with a padded message is stripped
and tagged; a 404 response yields the bare tag. -/
theorem commit_message_always_tagged_witness :
    generate_commit_message ⟨200, "  Tidy up\n".data⟩ = "Tidy up -git slut".data
    ∧ generate_commit_message ⟨404, "oops".data⟩ = "-git slut".data := by
  have h1 := (commit_message_always_tagged ⟨200, "  Tidy up\n".data⟩).2.1 rfl
  have h2 := (commit_message_always_tagged ⟨404, "oops".data⟩).2.2 (by decide)
  constructor
  · rw [h1]
    decide
  · exact h2

end GitSlut
